import Mathlib

/-!
Verification of the crossword CSP solver in `generate.py`
(`CrosswordCreator`): node consistency, AC-3 propagation, heuristic
backtracking search.  The Python code is shallowly embedded: the mutable
domain store `self.domains` becomes an explicitly threaded function
`Domains V`, Python `dict` assignments become association lists in
insertion order, Python exceptions raised by the solver (in particular the
`AttributeError` from `assignment.remove(var)` on a `dict`) become an
explicit `exn` result, and the two loops of `ac3` are modelled with their
exact CPython semantics (the inner `for` iterates by index over a list
that is mutated by `remove`/`append` during iteration).
-/

namespace CrosswordGen

/-- A candidate word is its list of characters. -/
abbrev Word : Type := List Char

/-- Modelled from the spec: the Puzzle Model provided by the `Crossword`
collaborator (`crossword.py`, outside the solver source): the slot list
(`crossword.variables`, in the iteration order the solver sees), the word
list, each slot's length, the overlap lookup (`crossword.overlaps`,
`none` when two slots do not cross) and the neighbor lookup
(`crossword.neighbors`). -/
structure Puzzle (V : Type) where
  vars : List V
  words : List Word
  vlen : V → Nat
  overlaps : V → V → Option (Nat × Nat)
  neighbors : V → List V

variable {V : Type} [DecidableEq V]

/-- The Domain Store: current candidate words of each slot
(`self.domains`). -/
abbrev Domains (V : Type) : Type := V → List Word

/-- A partial assignment: Python `dict` from slots to words, kept in
insertion order. -/
abbrev Assignment (V : Type) : Type := List (V × Word)

/-- The keys of an assignment (`assignment.keys()`). -/
def keys (A : Assignment V) : List V := A.map Prod.fst

/-- `itertools.combinations(l, 2)`: all unordered pairs of elements of
`l`, each produced once, first component earlier in `l`. -/
def combinations2 : List α → List (α × α)
  | [] => []
  | x :: xs => xs.map (fun y => (x, y)) ++ combinations2 xs

/-- Python `sorted(l, key=lambda kv: kv[0])`: a stable sort on the first
component.  `List.insertionSort` is a stable sort, hence extensionally
equal to CPython's stable sort for this total preorder. -/
def pysorted (l : List (Nat × α)) : List (Nat × α) :=
  List.insertionSort (fun a b => a.1 ≤ b.1) l

/-- Python `sorted(l, key=lambda k: k[0], reverse=True)`: stable
descending sort on the first component. -/
def pysortedDesc (l : List (Nat × α)) : List (Nat × α) :=
  List.insertionSort (fun a b => b.1 ≤ a.1) l

/-- `self.domains` right after `__init__`: every slot starts with a copy
of the full word list. -/
def initialDomains (p : Puzzle V) : Domains V := fun _ => p.words

/-- `enforce_node_consistency`: for every slot of the puzzle remove the
words whose length differs from the slot's length. -/
def enforce_node_consistency (p : Puzzle V) (dom : Domains V) : Domains V :=
  fun v => if v ∈ p.vars then (dom v).filter (fun w => w.length == p.vlen v) else dom v

/-- The loop of `revise` over `xl = [(xs[n][o[0]], xs[n])]`: remove from
the running domain `dx` every word whose overlap character has no match
in `yl`, tracking the `revised` flag. -/
def reviseLoop (yl : List Char) : List (Char × Word) → List Word → Bool → Bool × List Word
  | [], dx, revised => (revised, dx)
  | xw :: rest, dx, revised =>
    if yl.contains xw.1 then reviseLoop yl rest dx revised
    else reviseLoop yl rest (dx.erase xw.2) true

/-- `revise(x, y)`: make `x` arc consistent with `y`; returns the
`revised` flag together with the updated domain store. -/
def revise (p : Puzzle V) (x y : V) (dom : Domains V) : Bool × Domains V :=
  match p.overlaps x y with
  | none => (false, dom)
  | some o =>
    let xs := dom x
    let ys := dom y
    let xl := xs.map (fun w => (w.getD o.1 ' ', w))
    let yl := ys.map (fun w => w.getD o.2 ' ')
    let r := reviseLoop yl xl xs false
    (r.1, fun v => if v = x then r.2 else dom v)

/-- The `while queue != []: for arc in queue:` nest of `ac3`, with
CPython's exact semantics: the `for` iterator holds an index `idx` into
the list, `queue.remove(arc)` deletes the first occurrence of the arc
just yielded, and `queue.append` extends the list being iterated.  `fuel`
bounds the number of loop iterations; `none` means the bound was hit. -/
def ac3Aux (p : Puzzle V) : Nat → List (V × V) → Nat → Domains V → Option (Bool × Domains V)
  | 0, _, _, _ => none
  | fuel + 1, queue, idx, dom =>
    if h : idx < queue.length then
      let arc := queue.get ⟨idx, h⟩
      let queue1 := queue.erase arc
      let r := revise p arc.1 arc.2 dom
      if r.1 then
        if (r.2 arc.1).length = 0 then some (false, r.2)
        else
          ac3Aux p fuel (queue1 ++ (p.neighbors arc.1).map (fun z => (z, arc.1))) (idx + 1) r.2
      else ac3Aux p fuel queue1 (idx + 1) dom
    else
      if queue.isEmpty then some (true, dom)
      else ac3Aux p fuel queue 0 dom

/-- `ac3(arcs)`: when `arcs is None` start from
`list(combinations(self.domains, 2))`, otherwise from the given list. -/
def ac3 (p : Puzzle V) (fuel : Nat) (arcs : Option (List (V × V))) (dom : Domains V) :
    Option (Bool × Domains V) :=
  ac3Aux p fuel (arcs.getD (combinations2 p.vars)) 0 dom

/-- `assignment_complete`: every slot of the puzzle has an entry. -/
def assignment_complete (p : Puzzle V) (A : Assignment V) : Bool :=
  p.vars.all (fun v => decide (v ∈ keys A))

/-- The per-pair overlap check of `consistent`: a pair of assignment
entries passes when their slots do not overlap or their words agree at
the shared cell. -/
def overlapOK (p : Puzzle V) (c : (V × Word) × (V × Word)) : Bool :=
  match p.overlaps c.1.1 c.2.1 with
  | none => true
  | some o => c.1.2.getD o.1 ' ' == c.2.2.getD o.2 ' '

/-- `consistent`: no two slots share a word, every word has its slot's
length, and every assigned pair with an overlap agrees on the shared
cell; the three checks run in the source's order. -/
def consistent (p : Puzzle V) (A : Assignment V) : Bool :=
  !(A.any (fun q => A.any (fun q' => decide (q.1 ≠ q'.1) && q.2 == q'.2)))
    && A.all (fun q => q.2.length == p.vlen q.1)
    && (combinations2 A).all (fun c => overlapOK p c)

/-- The conflict count of `order_domain_values` for one candidate word:
over each unassigned neighbor, the number of its domain values that clash
at the overlap. -/
def odvCount (p : Puzzle V) (dom : Domains V) (A : Assignment V) (var : V) (w : Word) : Nat :=
  ((p.neighbors var).filter (fun v => decide (v ∉ keys A))).foldl
    (fun acc n =>
      match p.overlaps var n with
      | none => acc
      | some o => acc + ((dom n).filter (fun nv => !(w.getD o.1 ' ' == nv.getD o.2 ' '))).length)
    0

/-- `order_domain_values`: the domain itself if it is a singleton,
otherwise the domain stably sorted by ascending conflict count. -/
def order_domain_values (p : Puzzle V) (dom : Domains V) (A : Assignment V) (var : V) :
    List Word :=
  if (dom var).length == 1 then dom var
  else ((pysorted ((dom var).map (fun w => (odvCount p dom A var w, w)))).map (fun s => s.2))

/-- The `min_rv` loop of `select_unassigned_variable`: walk the sorted
`(domain size, slot)` list, collect the slots whose size equals `mn`,
stop at the first larger size. -/
def collectMin (mn : Nat) : List (Nat × V) → List V
  | [] => []
  | c :: rest =>
    if c.1 == mn then c.2 :: collectMin mn rest
    else if mn < c.1 then []
    else collectMin mn rest

/-- `max >= len(neighbors)` comparison of the degree loop, where the
running maximum starts as `-math.inf` (modelled as `none`). -/
def mxLE (mx : Option Nat) (d : Nat) : Bool :=
  match mx with
  | none => true
  | some m => m ≤ d

/-- The degree loop of `select_unassigned_variable`: append `(degree, v)`
whenever the degree reaches the running maximum. -/
def maxDegLoop (nbrs : V → List V) (mx : Option Nat) (acc : List (Nat × V)) :
    List V → List (Nat × V)
  | [] => acc
  | v :: rest =>
    let d := (nbrs v).length
    if mxLE mx d then maxDegLoop nbrs (some d) (acc ++ [(d, v)]) rest
    else maxDegLoop nbrs mx acc rest

/-- `select_unassigned_variable`: minimum remaining domain size, ties
broken by maximum degree.  `none` models the `IndexError`/`NameError`
paths that are unreachable while some slot is unassigned. -/
def select_unassigned_variable (p : Puzzle V) (dom : Domains V) (A : Assignment V) : Option V :=
  match pysorted ((p.vars.filter (fun k => decide (k ∉ keys A))).map
      (fun k => ((dom k).length, k))) with
  | [] => none
  | u :: us =>
    match collectMin u.1 (u :: us) with
    | [w] => some w
    | mrv =>
      match pysortedDesc (maxDegLoop p.neighbors none [] mrv) with
      | [] => none
      | s0 :: _ => some s0.2

/-- Outcome of a `backtrack` call: a returned assignment, a returned
`None`, or a raised exception (`assignment.remove(var)` is called on a
`dict`, which has no such method, so reaching that line raises
`AttributeError`); the exception carries the domain store at raise
time. -/
inductive BTResult (V : Type) where
  | found (A : Assignment V)
  | nosol
  | exn (dom : Domains V)

/-- The `for value in self.order_domain_values(var, assignment)` loop of
`backtrack`.  `rec` is the recursive call at the next depth; `acFuel`
fuels the inner `ac3` run.  After `inferences` is `False`, or after the
recursion returns `None`, control reaches `assignment.remove(var)` and
raises. -/
def btLoop (p : Puzzle V) (rec : Domains V → Assignment V → Option (BTResult V))
    (acFuel : Nat) (dom : Domains V) (A : Assignment V) (var : V) :
    List Word → Option (BTResult V)
  | [] => some .nosol
  | value :: rest =>
    let copy := A ++ [(var, value)]
    if consistent p copy then
      let arcs := combinations2 (p.vars.filter (fun v => decide (v ∉ keys copy)))
      match ac3 p acFuel (some arcs) dom with
      | none => none
      | some (inferences, dom2) =>
        if inferences then
          match rec dom2 copy with
          | none => none
          | some (.found r) => some (.found r)
          | some .nosol => some (.exn dom2)
          | some (.exn d) => some (.exn d)
        else some (.exn dom2)
    else btLoop p rec acFuel dom A var rest

/-- `backtrack(assignment)`, with `fuel` bounding the recursion depth
(and fuelling the inner `ac3` runs); `none` means a fuel bound was
hit. -/
def backtrack (p : Puzzle V) : Nat → Domains V → Assignment V → Option (BTResult V)
  | 0, _, _ => none
  | fuel + 1, dom, A =>
    if assignment_complete p A then some (.found A)
    else
      match select_unassigned_variable p dom A with
      | none => some (.exn dom)
      | some var => btLoop p (backtrack p fuel) fuel dom A var (order_domain_values p dom A var)

/-- `solve`: node consistency, one `ac3` pass whose Boolean result is
discarded, then `backtrack(dict())`. -/
def solve (p : Puzzle V) (f1 f2 : Nat) : Option (BTResult V) :=
  let dom1 := enforce_node_consistency p (initialDomains p)
  match ac3 p f1 none dom1 with
  | none => none
  | some r => backtrack p f2 r.2 []

/-- Whether a modelled run ended in a raised exception. -/
def isExn : Option (BTResult V) → Bool
  | some (.exn _) => true
  | _ => false


/-! ### Properties of `revise` -/

theorem revise_eq_none (p : Puzzle V) (x y : V) (dom : Domains V)
    (ho : p.overlaps x y = none) : revise p x y dom = (false, dom) := by
  unfold revise
  rw [ho]

theorem revise_eq_some (p : Puzzle V) (x y : V) (dom : Domains V) (o : Nat × Nat)
    (ho : p.overlaps x y = some o) :
    revise p x y dom =
      ((reviseLoop ((dom y).map (fun w => w.getD o.2 ' '))
          ((dom x).map (fun w => (w.getD o.1 ' ', w))) (dom x) false).1,
        fun v => if v = x then
          (reviseLoop ((dom y).map (fun w => w.getD o.2 ' '))
            ((dom x).map (fun w => (w.getD o.1 ' ', w))) (dom x) false).2
        else dom v) := by
  unfold revise
  rw [ho]

theorem reviseLoop_sublist (yl : List Char) :
    ∀ (xl : List (Char × Word)) (dx : List Word) (rev : Bool),
      List.Sublist (reviseLoop yl xl dx rev).2 dx
  | [], dx, rev => List.Sublist.refl dx
  | xw :: rest, dx, rev => by
    simp only [reviseLoop]
    split
    · exact reviseLoop_sublist yl rest dx rev
    · exact (reviseLoop_sublist yl rest (dx.erase xw.2) true).trans (List.erase_sublist _ _)

theorem reviseLoop_of_rev_true (yl : List Char) :
    ∀ (xl : List (Char × Word)) (dx : List Word), (reviseLoop yl xl dx true).1 = true
  | [], _ => rfl
  | xw :: rest, dx => by
    simp only [reviseLoop]
    split
    · exact reviseLoop_of_rev_true yl rest dx
    · exact reviseLoop_of_rev_true yl rest (dx.erase xw.2)

theorem reviseLoop_false (yl : List Char) :
    ∀ (xl : List (Char × Word)) (dx : List Word),
      (reviseLoop yl xl dx false).1 = false → (reviseLoop yl xl dx false).2 = dx
  | [], dx, _ => rfl
  | xw :: rest, dx, h => by
    simp only [reviseLoop] at h ⊢
    split at h
    · rename_i hc
      rw [if_pos hc]
      exact reviseLoop_false yl rest dx h
    · rw [reviseLoop_of_rev_true yl rest (dx.erase xw.2)] at h
      exact absurd h (by simp)

theorem reviseLoop_lt (yl : List Char) :
    ∀ (xl : List (Char × Word)) (dx : List Word), (∀ xw ∈ xl, xw.2 ∈ dx) →
      (reviseLoop yl xl dx false).1 = true → (reviseLoop yl xl dx false).2.length < dx.length
  | [], _, _, h => by simp [reviseLoop] at h
  | xw :: rest, dx, hmem, h => by
    simp only [reviseLoop] at h ⊢
    split at h
    · rename_i hc
      rw [if_pos hc]
      exact reviseLoop_lt yl rest dx (fun a ha => hmem a (List.mem_cons_of_mem _ ha)) h
    · rename_i hc
      rw [if_neg hc]
      have h1 : (reviseLoop yl rest (dx.erase xw.2) true).2.length ≤ (dx.erase xw.2).length :=
        (reviseLoop_sublist yl rest (dx.erase xw.2) true).length_le
      have h2 : xw.2 ∈ dx := hmem xw (List.mem_cons_self _ _)
      have h3 : (dx.erase xw.2).length = dx.length - 1 := List.length_erase_of_mem h2
      have h4 : 0 < dx.length := List.length_pos_of_mem h2
      omega

theorem revise_apply_ne (p : Puzzle V) (x y v : V) (dom : Domains V) (h : v ≠ x) :
    (revise p x y dom).2 v = dom v := by
  cases ho : p.overlaps x y with
  | none => rw [revise_eq_none p x y dom ho]
  | some o =>
    rw [revise_eq_some p x y dom o ho]
    simp [h]

theorem revise_sublist (p : Puzzle V) (x y : V) (dom : Domains V) (v : V) :
    List.Sublist ((revise p x y dom).2 v) (dom v) := by
  cases ho : p.overlaps x y with
  | none =>
    rw [revise_eq_none p x y dom ho]
  | some o =>
    rw [revise_eq_some p x y dom o ho]
    by_cases hv : v = x
    · subst hv
      simp only [if_pos rfl]
      exact reviseLoop_sublist _ _ _ _
    · simp only [if_neg hv]
      exact List.Sublist.refl _

theorem revise_nodup (p : Puzzle V) (x y : V) (dom : Domains V) (v : V)
    (h : (dom v).Nodup) : ((revise p x y dom).2 v).Nodup :=
  (revise_sublist p x y dom v).nodup h

theorem revise_lt_of_changed (p : Puzzle V) (x y : V) (dom : Domains V)
    (hch : (revise p x y dom).1 = true) :
    ((revise p x y dom).2 x).length < (dom x).length := by
  cases ho : p.overlaps x y with
  | none =>
    rw [revise_eq_none p x y dom ho] at hch
    exact absurd hch (by simp)
  | some o =>
    rw [revise_eq_some p x y dom o ho] at hch ⊢
    simp only [if_pos rfl]
    refine reviseLoop_lt _ _ _ (fun xw hxw => ?_) hch
    obtain ⟨w, hw, rfl⟩ := List.mem_map.mp hxw
    exact hw

theorem revise_false_of_no_overlap (p : Puzzle V) (x y : V) (dom : Domains V)
    (h : p.overlaps x y = none) : (revise p x y dom).1 = false := by
  rw [revise_eq_none p x y dom h]

/-- Claim C8: `revise(X, Y)` returns `False` iff `domain[X]` is unchanged
by the call; in particular it returns `False` when `X` and `Y` have no
overlap, and returns `True` iff at least one value was removed. -/
theorem revise_false_iff_unchanged (p : Puzzle V) (x y : V) (dom : Domains V) :
    ((revise p x y dom).1 = false ↔ (revise p x y dom).2 x = dom x)
    ∧ (p.overlaps x y = none → (revise p x y dom).1 = false)
    ∧ ((revise p x y dom).1 = true ↔ (revise p x y dom).2 x ≠ dom x) := by
  have hmain : (revise p x y dom).1 = false ↔ (revise p x y dom).2 x = dom x := by
    constructor
    · intro h
      cases ho : p.overlaps x y with
      | none => rw [revise_eq_none p x y dom ho]
      | some o =>
        rw [revise_eq_some p x y dom o ho] at h ⊢
        simp only [if_pos rfl]
        exact reviseLoop_false _ _ _ h
    · intro h
      cases hb : (revise p x y dom).1 with
      | false => rfl
      | true =>
        have := revise_lt_of_changed p x y dom hb
        rw [h] at this
        omega
  refine ⟨hmain, revise_false_of_no_overlap p x y dom, ?_, ?_⟩
  · intro ht h
    have hf := hmain.mpr h
    rw [hf] at ht
    exact absurd ht (by simp)
  · intro hne
    cases hb : (revise p x y dom).1 with
    | true => rfl
    | false => exact absurd (hmain.mp hb) hne

/-! ### Properties of `ac3` -/

theorem ac3Aux_sublist (p : Puzzle V) :
    ∀ (fuel : Nat) (queue : List (V × V)) (idx : Nat) (dom : Domains V) (b : Bool)
      (dom' : Domains V), ac3Aux p fuel queue idx dom = some (b, dom') →
      ∀ v, List.Sublist (dom' v) (dom v)
  | 0, _, _, _, _, _, h => by simp [ac3Aux] at h
  | fuel + 1, queue, idx, dom, b, dom', h => by
    rw [ac3Aux] at h
    split at h
    · dsimp only at h
      split at h
      · split at h
        · injection h with h
          injection h with h1 h2
          subst h2
          intro v
          exact revise_sublist p _ _ dom v
        · intro v
          exact (ac3Aux_sublist p fuel _ _ _ b dom' h v).trans (revise_sublist p _ _ dom v)
      · exact ac3Aux_sublist p fuel _ _ _ b dom' h
    · split at h
      · injection h with h
        injection h with h1 h2
        subst h2
        intro v
        exact List.Sublist.refl _
      · exact ac3Aux_sublist p fuel _ _ _ b dom' h

theorem ac3Aux_false_empty (p : Puzzle V) :
    ∀ (fuel : Nat) (queue : List (V × V)) (idx : Nat) (dom : Domains V) (dom' : Domains V),
      ac3Aux p fuel queue idx dom = some (false, dom') → ∃ v, dom' v = []
  | 0, _, _, _, _, h => by simp [ac3Aux] at h
  | fuel + 1, queue, idx, dom, dom', h => by
    rw [ac3Aux] at h
    split at h
    · dsimp only at h
      split at h
      · split at h
        · rename_i hzero
          injection h with h
          injection h with h1 h2
          subst h2
          exact ⟨_, List.length_eq_zero.mp hzero⟩
        · exact ac3Aux_false_empty p fuel _ _ _ dom' h
      · exact ac3Aux_false_empty p fuel _ _ _ dom' h
    · split at h
      · injection h with h
        injection h with h1 h2
        exact absurd h1.symm (by simp)
      · exact ac3Aux_false_empty p fuel _ _ _ dom' h

/-- Claim C6: for every initial arc list and every starting domain store,
`ac3` only ever removes values (each slot's final domain is a subset of
its initial one), and whenever it returns `False` some slot's domain is
empty at that moment. -/
theorem ac3_monotone_and_false_empty (p : Puzzle V) (fuel : Nat)
    (arcs : Option (List (V × V))) (dom : Domains V) (b : Bool) (dom' : Domains V)
    (h : ac3 p fuel arcs dom = some (b, dom')) :
    (∀ v, dom' v ⊆ dom v) ∧ (b = false → ∃ v, dom' v = []) := by
  constructor
  · intro v
    exact (ac3Aux_sublist p fuel _ 0 dom b dom' h v).subset
  · intro hb
    subst hb
    exact ac3Aux_false_empty p fuel _ 0 dom dom' h

/-! ### Concrete puzzles -/

/-- The word `AAA`. -/
def wA : Word := ['A', 'A', 'A']

/-- The word `BBB`. -/
def wB : Word := ['B', 'B', 'B']

/-- The word `ABB`. -/
def wAB : Word := ['A', 'B', 'B']

/-- Two crossing slots of length 3 sharing their first cells, word list
`{AAA, BBB}`: the puzzle has no solution (equal words repeat, distinct
words clash at the shared cell). -/
def pC : Puzzle (Fin 2) :=
  ⟨[0, 1], [wA, wB], fun _ => 3,
    fun x y => if x = y then none else some (0, 0),
    fun x => if x = 0 then [1] else [0]⟩

/-- Two crossing slots of length 3 sharing their first cells, word list
`{AAA, ABB}`: solvable by `0 ↦ AAA, 1 ↦ ABB`. -/
def pS : Puzzle (Fin 2) :=
  ⟨[0, 1], [wA, wAB], fun _ => 3,
    fun x y => if x = y then none else some (0, 0),
    fun x => if x = 0 then [1] else [0]⟩

/-- A domain store on `pS` with `0 ↦ {AAA, BBB}`, `1 ↦ {ABB}`:
`revise(0, 1)` removes `BBB` and leaves slot 0 non-empty. -/
def d5 : Domains (Fin 2) := fun v => if v = 0 then [wA, wB] else [wAB]

/-! ### Claim C5: arcs enqueued after a successful revision -/

/-- Counterexample to claim C5 as stated: on `pS` with domains `d5`,
processing the arc `(0, 1)` revises slot 0's domain (removing `BBB`),
the domain stays non-empty, and the worklist passed to the next
iteration is exactly `[(1, 0)]` — the arc `(Y, X)` — because the code
appends `(z, arc[0])` for every `z` in `neighbors(arc[0])` without
excluding `Y`.  The claim asserts `(Y, X)` is not enqueued. -/
theorem ac3_enqueues_y_counterexample :
    (revise pS (0 : Fin 2) 1 d5).1 = true
    ∧ (revise pS (0 : Fin 2) 1 d5).2 0 ≠ []
    ∧ ac3Aux pS 6 [((0 : Fin 2), (1 : Fin 2))] 0 d5
        = ac3Aux pS 5 [((1 : Fin 2), (0 : Fin 2))] 1 ((revise pS 0 1 d5).2)
    ∧ ((1 : Fin 2), (0 : Fin 2)) ∈ (pS.neighbors 0).map (fun z => (z, (0 : Fin 2))) :=
  ⟨by decide, by decide, rfl, by decide⟩

/-- Claim C5, amended: after `revise(X, Y)` removes a value and
`domain[X]` stays non-empty, the arcs `(Z, X)` for every neighbor `Z` of
`X` — including `Y` itself — are appended to the worklist; the processed
arc is removed from it and iteration continues at the next index. -/
theorem ac3_enqueues_all_neighbors (p : Puzzle V) (fuel : Nat) (queue : List (V × V))
    (idx : Nat) (dom : Domains V) (x y : V) (h : idx < queue.length)
    (harc : queue.get ⟨idx, h⟩ = (x, y)) (hch : (revise p x y dom).1 = true)
    (hne : (revise p x y dom).2 x ≠ []) :
    ac3Aux p (fuel + 1) queue idx dom
      = ac3Aux p fuel (queue.erase (x, y) ++ (p.neighbors x).map (fun z => (z, x)))
          (idx + 1) ((revise p x y dom).2)
    ∧ (y ∈ p.neighbors x → (y, x) ∈ (p.neighbors x).map (fun z => (z, x))) := by
  constructor
  · rw [ac3Aux]
    rw [dif_pos h]
    dsimp only
    rw [harc]
    rw [if_pos hch]
    rw [if_neg (by simpa [List.length_eq_zero] using hne)]
  · intro hy
    exact List.mem_map.mpr ⟨y, hy, rfl⟩

/-- Witness for the amended C5 at a concrete step: on `pS` with domains
`d5`, the next worklist is `[(1, 0)]`. -/
theorem ac3_enqueues_all_neighbors_witness :
    (ac3Aux pS 6 [((0 : Fin 2), (1 : Fin 2))] 0 d5
      = ac3Aux pS 5 ([((0 : Fin 2), (1 : Fin 2))].erase ((0 : Fin 2), (1 : Fin 2))
          ++ (pS.neighbors 0).map (fun z => (z, (0 : Fin 2)))) 1 ((revise pS 0 1 d5).2))
    ∧ (((1 : Fin 2) ∈ pS.neighbors 0) → ((1 : Fin 2), (0 : Fin 2))
        ∈ (pS.neighbors 0).map (fun z => (z, (0 : Fin 2)))) :=
  ac3_enqueues_all_neighbors pS 5 [((0 : Fin 2), (1 : Fin 2))] 0 d5 0 1 (by decide)
    (by decide) (by decide) (by decide)

/-! ### Claim C10: termination of `ac3` -/

/-- Total number of candidate words over all slots: every arc appended to
the worklist is paid for by a prior removal, so this quantity drives
termination. -/
def totalSize (p : Puzzle V) (dom : Domains V) : Nat :=
  (p.vars.map (fun v => (dom v).length)).sum

/-- Termination potential of an `ac3Aux` state: each loop iteration
strictly decreases it (a revision that removed a value lowers
`totalSize`, which dominates the at most `K` arcs appended; otherwise the
queue shrinks; restarting the inner `for` clears the flag). -/
def ac3Pot (p : Puzzle V) (K : Nat) (dom : Domains V) (queue : List (V × V)) (idx : Nat) :
    Nat :=
  totalSize p dom * (2 * K + 2) + 2 * queue.length + (if idx < queue.length then 0 else 1)

theorem sum_map_le_sum_map {l : List α} {f g : α → Nat} (h : ∀ v, f v ≤ g v) :
    (l.map f).sum ≤ (l.map g).sum := by
  induction l with
  | nil => simp
  | cons v rest ih =>
    simp only [List.map_cons, List.sum_cons]
    exact Nat.add_le_add (h v) ih

theorem sum_map_lt_sum_map {l : List α} {f g : α → Nat} (h : ∀ v, f v ≤ g v) (x : α)
    (hx : x ∈ l) (hlt : f x < g x) : (l.map f).sum < (l.map g).sum := by
  induction l with
  | nil => exact absurd hx (List.not_mem_nil x)
  | cons v rest ih =>
    simp only [List.map_cons, List.sum_cons]
    rcases List.mem_cons.mp hx with hv | hv
    · subst hv
      exact Nat.add_lt_add_of_lt_of_le hlt (sum_map_le_sum_map h)
    · exact Nat.add_lt_add_of_le_of_lt (h v) (ih hv)

theorem totalSize_lt (p : Puzzle V) (dom dom' : Domains V) (x : V) (hx : x ∈ p.vars)
    (hle : ∀ v, (dom' v).length ≤ (dom v).length)
    (hlt : (dom' x).length < (dom x).length) :
    totalSize p dom' < totalSize p dom :=
  sum_map_lt_sum_map hle x hx hlt

theorem ac3Pot_le (p : Puzzle V) (K : Nat) (dom : Domains V) (queue : List (V × V))
    (idx : Nat) :
    ac3Pot p K dom queue idx ≤ totalSize p dom * (2 * K + 2) + 2 * queue.length + 1 := by
  unfold ac3Pot
  split <;> omega

theorem ac3Pot_of_lt (p : Puzzle V) (K : Nat) (dom : Domains V) (queue : List (V × V))
    (idx : Nat) (h : idx < queue.length) :
    ac3Pot p K dom queue idx = totalSize p dom * (2 * K + 2) + 2 * queue.length := by
  unfold ac3Pot
  rw [if_pos h]
  omega

theorem ac3Pot_of_not_lt (p : Puzzle V) (K : Nat) (dom : Domains V) (queue : List (V × V))
    (idx : Nat) (h : ¬ idx < queue.length) :
    ac3Pot p K dom queue idx = totalSize p dom * (2 * K + 2) + 2 * queue.length + 1 := by
  unfold ac3Pot
  rw [if_neg h]

theorem ac3Aux_terminates_aux (p : Puzzle V) (K : Nat)
    (hK : ∀ v, (p.neighbors v).length ≤ K)
    (hnb : ∀ x z, z ∈ p.neighbors x → z ∈ p.vars) :
    ∀ (n : Nat) (queue : List (V × V)) (idx : Nat) (dom : Domains V),
      (∀ a ∈ queue, a.1 ∈ p.vars) → ac3Pot p K dom queue idx ≤ n →
      (ac3Aux p (n + 1) queue idx dom).isSome = true := by
  intro n
  induction n using Nat.strong_induction_on with
  | _ n ih =>
    intro queue idx dom hq hpot
    rw [ac3Aux]
    by_cases h : idx < queue.length
    · rw [dif_pos h]
      dsimp only
      have harcmem : queue.get ⟨idx, h⟩ ∈ queue := List.get_mem queue idx h
      have hx : (queue.get ⟨idx, h⟩).1 ∈ p.vars := hq _ harcmem
      have hquelen : (queue.erase (queue.get ⟨idx, h⟩)).length = queue.length - 1 :=
        List.length_erase_of_mem harcmem
      have hqpos : 0 < queue.length := Nat.lt_of_le_of_lt (Nat.zero_le idx) h
      have hpot1 : 1 ≤ ac3Pot p K dom queue idx := by
        rw [ac3Pot_of_lt p K dom queue idx h]
        omega
      by_cases hr : (revise p (queue.get ⟨idx, h⟩).1 (queue.get ⟨idx, h⟩).2 dom).1 = true
      · rw [if_pos hr]
        by_cases hz :
            ((revise p (queue.get ⟨idx, h⟩).1 (queue.get ⟨idx, h⟩).2 dom).2
              (queue.get ⟨idx, h⟩).1).length = 0
        · rw [if_pos hz]
          rfl
        · rw [if_neg hz]
          have hTS :
              totalSize p (revise p (queue.get ⟨idx, h⟩).1 (queue.get ⟨idx, h⟩).2 dom).2 + 1
                ≤ totalSize p dom := by
            have := totalSize_lt p dom
              (revise p (queue.get ⟨idx, h⟩).1 (queue.get ⟨idx, h⟩).2 dom).2
              (queue.get ⟨idx, h⟩).1 hx
              (fun v => (revise_sublist p _ _ dom v).length_le)
              (revise_lt_of_changed p _ _ dom hr)
            omega
          have happlen :
              ((p.neighbors (queue.get ⟨idx, h⟩).1).map
                (fun z => (z, (queue.get ⟨idx, h⟩).1))).length ≤ K := by
            rw [List.length_map]
            exact hK _
          have hmul :
              (totalSize p (revise p (queue.get ⟨idx, h⟩).1 (queue.get ⟨idx, h⟩).2 dom).2 + 1)
                  * (2 * K + 2)
                ≤ totalSize p dom * (2 * K + 2) :=
            Nat.mul_le_mul_right _ hTS
          rw [Nat.add_mul] at hmul
          have hub := ac3Pot_le p K
            (revise p (queue.get ⟨idx, h⟩).1 (queue.get ⟨idx, h⟩).2 dom).2
            (queue.erase (queue.get ⟨idx, h⟩)
              ++ (p.neighbors (queue.get ⟨idx, h⟩).1).map
                (fun z => (z, (queue.get ⟨idx, h⟩).1)))
            (idx + 1)
          rw [List.length_append, hquelen] at hub
          have hold := ac3Pot_of_lt p K dom queue idx h
          obtain ⟨m, rfl⟩ : ∃ m, n = m + 1 := ⟨n - 1, by omega⟩
          refine ih m (Nat.lt_succ_self m) _ _ _ ?_ ?_
          · intro a ha
            rcases List.mem_append.mp ha with ha | ha
            · exact hq a (List.mem_of_mem_erase ha)
            · obtain ⟨z, hz2, rfl⟩ := List.mem_map.mp ha
              exact hnb _ _ hz2
          · omega
      · rw [if_neg hr]
        have hub := ac3Pot_le p K dom (queue.erase (queue.get ⟨idx, h⟩)) (idx + 1)
        rw [hquelen] at hub
        have hold := ac3Pot_of_lt p K dom queue idx h
        obtain ⟨m, rfl⟩ : ∃ m, n = m + 1 := ⟨n - 1, by omega⟩
        refine ih m (Nat.lt_succ_self m) _ _ _ ?_ ?_
        · intro a ha
          exact hq a (List.mem_of_mem_erase ha)
        · omega
    · rw [dif_neg h]
      by_cases he : queue.isEmpty
      · rw [if_pos he]
        rfl
      · rw [if_neg he]
        have hqpos : 0 < queue.length := by
          cases queue with
          | nil => simp [List.isEmpty] at he
          | cons a l => simp
        have hnew := ac3Pot_of_lt p K dom queue 0 hqpos
        have hold := ac3Pot_of_not_lt p K dom queue idx h
        obtain ⟨m, rfl⟩ : ∃ m, n = m + 1 := ⟨n - 1, by omega⟩
        refine ih m (Nat.lt_succ_self m) _ _ _ hq ?_
        omega

/-- Claim C10: `ac3` terminates on every finite puzzle for every starting
domain store and every initial arc list over the puzzle's slots: some
finite fuel suffices for the worklist loop to drain (`K` bounds the
neighbor counts). -/
theorem ac3_terminates (p : Puzzle V) (K : Nat) (hK : ∀ v, (p.neighbors v).length ≤ K)
    (hnb : ∀ x z, z ∈ p.neighbors x → z ∈ p.vars) (arcs : Option (List (V × V)))
    (dom : Domains V) (hq : ∀ a ∈ arcs.getD (combinations2 p.vars), a.1 ∈ p.vars) :
    ∃ fuel, (ac3 p fuel arcs dom).isSome = true :=
  ⟨ac3Pot p K dom (arcs.getD (combinations2 p.vars)) 0 + 1,
    ac3Aux_terminates_aux p K hK hnb _ _ 0 dom hq (Nat.le_refl _)⟩

/-- Witness for C10: on the crash puzzle with the full initial arc list,
some fuel makes `ac3` finish. -/
theorem ac3_terminates_witness :
    ∃ fuel, (ac3 pC fuel none (initialDomains pC)).isSome = true :=
  ac3_terminates pC 1 (by decide) (by decide) none (initialDomains pC) (by decide)

/-! ### Claim C1: soundness of `backtrack` results -/

theorem overlapOK_some (p : Puzzle V) (c : (V × Word) × (V × Word)) (o : Nat × Nat)
    (ho : p.overlaps c.1.1 c.2.1 = some o) :
    overlapOK p c = (c.1.2.getD o.1 ' ' == c.2.2.getD o.2 ' ') := by
  unfold overlapOK
  rw [ho]

theorem consistent_spec (p : Puzzle V) (A : Assignment V) (h : consistent p A = true) :
    (∀ q ∈ A, ∀ q' ∈ A, q.1 ≠ q'.1 → q.2 ≠ q'.2)
    ∧ (∀ q ∈ A, q.2.length = p.vlen q.1)
    ∧ (∀ c ∈ combinations2 A, ∀ i j, p.overlaps c.1.1 c.2.1 = some (i, j) →
        c.1.2.getD i ' ' = c.2.2.getD j ' ') := by
  unfold consistent at h
  rw [Bool.and_eq_true, Bool.and_eq_true] at h
  obtain ⟨⟨h1, h2⟩, h3⟩ := h
  refine ⟨?_, ?_, ?_⟩
  · intro q hq q' hq' hne heq
    have hx : A.any (fun q => A.any (fun q' => decide (q.1 ≠ q'.1) && q.2 == q'.2)) = true :=
      List.any_eq_true.mpr ⟨q, hq, List.any_eq_true.mpr ⟨q', hq', by simp [hne, heq]⟩⟩
    rw [hx] at h1
    exact absurd h1 (by simp)
  · intro q hq
    have := List.all_eq_true.mp h2 q hq
    simpa using this
  · intro c hc i j ho
    have := List.all_eq_true.mp h3 c hc
    rw [overlapOK_some p c (i, j) ho] at this
    simpa using this

theorem complete_spec (p : Puzzle V) (A : Assignment V) (h : assignment_complete p A = true) :
    ∀ v ∈ p.vars, v ∈ keys A := by
  intro v hv
  have := List.all_eq_true.mp h v hv
  simpa using this

theorem combinations2_cover {l : List α} {a b : α} (ha : a ∈ l) (hb : b ∈ l) (hne : a ≠ b) :
    (a, b) ∈ combinations2 l ∨ (b, a) ∈ combinations2 l := by
  induction l with
  | nil => cases ha
  | cons x xs ih =>
    rw [combinations2]
    rcases List.mem_cons.mp ha with rfl | ha'
    · have hb' : b ∈ xs := by
        rcases List.mem_cons.mp hb with rfl | hbx
        · exact absurd rfl hne
        · exact hbx
      exact Or.inl (List.mem_append.mpr (Or.inl (List.mem_map.mpr ⟨b, hb', rfl⟩)))
    · rcases List.mem_cons.mp hb with rfl | hb'
      · exact Or.inr (List.mem_append.mpr (Or.inl (List.mem_map.mpr ⟨a, ha', rfl⟩)))
      · rcases ih ha' hb' with hc | hc
        · exact Or.inl (List.mem_append.mpr (Or.inr hc))
        · exact Or.inr (List.mem_append.mpr (Or.inr hc))

theorem btLoop_found (p : Puzzle V) (rec : Domains V → Assignment V → Option (BTResult V))
    (acFuel : Nat) (dom : Domains V) (A : Assignment V) (var : V) :
    ∀ (vals : List Word) (A' : Assignment V),
      btLoop p rec acFuel dom A var vals = some (.found A') →
      ∃ value dom2, consistent p (A ++ [(var, value)]) = true
        ∧ rec dom2 (A ++ [(var, value)]) = some (.found A')
  | [], A', h => by simp [btLoop] at h
  | value :: rest, A', h => by
    rw [btLoop] at h
    dsimp only at h
    split at h
    · rename_i hcons
      split at h
      · exact absurd h (by simp)
      · rename_i r hac
        split at h
        · split at h
          · exact absurd h (by simp)
          · rename_i r2 hr2
            simp only [Option.some.injEq, BTResult.found.injEq] at h
            subst h
            exact ⟨value, _, hcons, hr2⟩
          · exact absurd h (by simp)
          · exact absurd h (by simp)
        · exact absurd h (by simp)
    · exact btLoop_found p rec acFuel dom A var rest A' h

theorem backtrack_found (p : Puzzle V) :
    ∀ (fuel : Nat) (dom : Domains V) (A A' : Assignment V),
      consistent p A = true → backtrack p fuel dom A = some (.found A') →
      assignment_complete p A' = true ∧ consistent p A' = true
  | 0, dom, A, A', hA, h => by simp [backtrack] at h
  | fuel + 1, dom, A, A', hA, h => by
    rw [backtrack] at h
    split at h
    · rename_i hcomp
      simp only [Option.some.injEq, BTResult.found.injEq] at h
      subst h
      exact ⟨hcomp, hA⟩
    · split at h
      · exact absurd h (by simp)
      · obtain ⟨value, dom2, hcons, hrec⟩ := btLoop_found p _ _ dom A _ _ A' h
        exact backtrack_found p fuel dom2 _ A' hcons hrec

/-- Claim C1: every non-failure assignment returned by `backtrack` (and
hence by `solve`) starting from a consistent partial assignment covers
every slot and satisfies all binary constraints: assigned lengths match
slot lengths, assigned words are pairwise distinct, and every overlapping
pair agrees at the shared cell (the overlap table is symmetric, as the
Puzzle Model guarantees). -/
theorem backtrack_solution_valid (p : Puzzle V) (fuel : Nat) (dom : Domains V)
    (A A' : Assignment V) (hA : consistent p A = true)
    (hsymm : ∀ x y, p.overlaps y x = (p.overlaps x y).map Prod.swap)
    (h : backtrack p fuel dom A = some (.found A')) :
    (∀ v ∈ p.vars, v ∈ keys A')
    ∧ (∀ q ∈ A', q.2.length = p.vlen q.1)
    ∧ (∀ q ∈ A', ∀ q' ∈ A', q.1 ≠ q'.1 → q.2 ≠ q'.2)
    ∧ (∀ q ∈ A', ∀ q' ∈ A', ∀ i j, p.overlaps q.1 q'.1 = some (i, j) →
        q.2.getD i ' ' = q'.2.getD j ' ') := by
  obtain ⟨hcomp, hcons⟩ := backtrack_found p fuel dom A A' hA h
  obtain ⟨hdist, hlen, hov⟩ := consistent_spec p A' hcons
  refine ⟨complete_spec p A' hcomp, hlen, hdist, ?_⟩
  intro q hq q' hq' i j ho
  by_cases hqq : q = q'
  · subst hqq
    have hself := hsymm q.1 q.1
    rw [ho] at hself
    simp only [Option.map_some'] at hself
    injection hself with hself
    have hij : i = j := congrArg Prod.fst hself
    rw [hij]
  · rcases combinations2_cover hq hq' hqq with hc | hc
    · exact hov (q, q') hc i j ho
    · have ho' : p.overlaps q'.1 q.1 = some (j, i) := by
        rw [hsymm q.1 q'.1, ho]
        rfl
      exact (hov (q', q) hc j i ho').symm

/-- The domain store of the solvable puzzle `pS` after node
consistency. -/
def domS : Domains (Fin 2) := enforce_node_consistency pS (initialDomains pS)

/-- Witness for C1: on the solvable puzzle `pS`, `backtrack` returns the
assignment `0 ↦ AAA, 1 ↦ ABB`, and slot 0 is indeed covered by it. -/
theorem backtrack_solution_valid_witness :
    (0 : Fin 2) ∈ keys [((0 : Fin 2), wA), ((1 : Fin 2), wAB)] :=
  (backtrack_solution_valid pS 9 domS [] [((0 : Fin 2), wA), ((1 : Fin 2), wAB)]
    (by decide) (by decide) (by rfl)).1 0 (by decide)

/-! ### Claim C7: the variable-selection heuristics -/

instance : IsTotal (Nat × α) (fun a b => a.1 ≤ b.1) :=
  ⟨fun a b => Nat.le_total a.1 b.1⟩

instance : IsTrans (Nat × α) (fun a b => a.1 ≤ b.1) :=
  ⟨fun _ _ _ h1 h2 => Nat.le_trans h1 h2⟩

instance : IsTotal (Nat × α) (fun a b => b.1 ≤ a.1) :=
  ⟨fun a b => Nat.le_total b.1 a.1⟩

instance : IsTrans (Nat × α) (fun a b => b.1 ≤ a.1) :=
  ⟨fun _ _ _ h1 h2 => Nat.le_trans h2 h1⟩

theorem pysorted_perm (l : List (Nat × α)) : List.Perm (pysorted l) l :=
  List.perm_insertionSort _ l

theorem pysorted_sorted (l : List (Nat × α)) :
    List.Sorted (fun a b : Nat × α => a.1 ≤ b.1) (pysorted l) :=
  List.sorted_insertionSort _ l

theorem pysortedDesc_perm (l : List (Nat × α)) : List.Perm (pysortedDesc l) l :=
  List.perm_insertionSort _ l

theorem pysortedDesc_sorted (l : List (Nat × α)) :
    List.Sorted (fun a b : Nat × α => b.1 ≤ a.1) (pysortedDesc l) :=
  List.sorted_insertionSort _ l

theorem collectMin_mem (mn : Nat) :
    ∀ (l : List (Nat × V)), List.Sorted (fun a b : Nat × V => a.1 ≤ b.1) l →
      (∀ e ∈ l, mn ≤ e.1) →
      ∀ v, (v ∈ collectMin mn l ↔ ∃ e, e ∈ l ∧ e.1 = mn ∧ e.2 = v)
  | [], _, _, v => by simp [collectMin]
  | c :: rest, hsort, hge, v => by
    rw [collectMin]
    by_cases hc : c.1 = mn
    · rw [if_pos (by simpa using hc)]
      have hrec := collectMin_mem mn rest hsort.of_cons
        (fun e he => hge e (List.mem_cons_of_mem _ he)) v
      constructor
      · intro hv
        rcases List.mem_cons.mp hv with rfl | hv'
        · exact ⟨c, List.mem_cons_self _ _, hc, rfl⟩
        · obtain ⟨e, he, h1, h2⟩ := hrec.mp hv'
          exact ⟨e, List.mem_cons_of_mem _ he, h1, h2⟩
      · rintro ⟨e, he, h1, h2⟩
        rcases List.mem_cons.mp he with rfl | he'
        · rw [← h2]
          exact List.mem_cons_self _ _
        · exact List.mem_cons_of_mem _ (hrec.mpr ⟨e, he', h1, h2⟩)
    · have hlt : mn < c.1 :=
        Nat.lt_of_le_of_ne (hge c (List.mem_cons_self _ _)) (Ne.symm hc)
      rw [if_neg (by simpa using hc), if_pos hlt]
      constructor
      · intro hv
        exact absurd hv (List.not_mem_nil v)
      · rintro ⟨e, he, h1, h2⟩
        rcases List.mem_cons.mp he with rfl | he'
        · exact absurd h1 hc
        · have := List.rel_of_sorted_cons hsort e he'
          omega

theorem maxDegLoop_acc_mem (nbrs : V → List V) :
    ∀ (l : List V) (mx : Option Nat) (acc : List (Nat × V)) (e : Nat × V),
      e ∈ acc → e ∈ maxDegLoop nbrs mx acc l
  | [], _, _, _, he => he
  | v :: rest, mx, acc, e, he => by
    rw [maxDegLoop]
    split
    · exact maxDegLoop_acc_mem nbrs rest _ _ e (List.mem_append.mpr (Or.inl he))
    · exact maxDegLoop_acc_mem nbrs rest _ _ e he

theorem maxDegLoop_mem (nbrs : V → List V) :
    ∀ (l : List V) (mx : Option Nat) (acc : List (Nat × V)) (e : Nat × V),
      e ∈ maxDegLoop nbrs mx acc l →
      e ∈ acc ∨ ∃ v ∈ l, e = ((nbrs v).length, v)
  | [], _, _, _, he => Or.inl he
  | v :: rest, mx, acc, e, he => by
    rw [maxDegLoop] at he
    split at he
    · rcases maxDegLoop_mem nbrs rest _ _ e he with hacc | ⟨v', hv', he'⟩
      · rcases List.mem_append.mp hacc with h1 | h1
        · exact Or.inl h1
        · refine Or.inr ⟨v, List.mem_cons_self _ _, ?_⟩
          simpa using h1
      · exact Or.inr ⟨v', List.mem_cons_of_mem _ hv', he'⟩
    · rcases maxDegLoop_mem nbrs rest _ _ e he with hacc | ⟨v', hv', he'⟩
      · exact Or.inl hacc
      · exact Or.inr ⟨v', List.mem_cons_of_mem _ hv', he'⟩

theorem maxDegLoop_ub (nbrs : V → List V) :
    ∀ (l : List V) (mx : Option Nat) (acc : List (Nat × V)),
      (∀ m, mx = some m → ∃ e ∈ acc, m ≤ e.1) →
      ∀ v ∈ l, ∃ e ∈ maxDegLoop nbrs mx acc l, (nbrs v).length ≤ e.1
  | [], _, _, _, v, hv => absurd hv (List.not_mem_nil v)
  | v0 :: rest, mx, acc, hinv, v, hv => by
    rw [maxDegLoop]
    by_cases hle : mxLE mx (nbrs v0).length = true
    · rw [if_pos hle]
      have hinv' : ∀ m, (some (nbrs v0).length : Option Nat) = some m →
          ∃ e ∈ acc ++ [((nbrs v0).length, v0)], m ≤ e.1 := by
        intro m hm
        injection hm with hm
        exact ⟨((nbrs v0).length, v0),
          List.mem_append.mpr (Or.inr (List.mem_cons_self _ _)), by omega⟩
      rcases List.mem_cons.mp hv with rfl | hv'
      · exact ⟨((nbrs v).length, v),
          maxDegLoop_acc_mem nbrs rest _ _ _
            (List.mem_append.mpr (Or.inr (List.mem_cons_self _ _))),
          Nat.le_refl _⟩
      · exact maxDegLoop_ub nbrs rest _ _ hinv' v hv'
    · rw [if_neg hle]
      rcases List.mem_cons.mp hv with rfl | hv'
      · obtain ⟨m, hm⟩ : ∃ m, mx = some m := by
          cases mx with
          | none => exact absurd (rfl : mxLE none (nbrs v).length = true) hle
          | some m => exact ⟨m, rfl⟩
        obtain ⟨e, he, hme⟩ := hinv m hm
        refine ⟨e, maxDegLoop_acc_mem nbrs rest _ _ _ he, ?_⟩
        have hvm : ¬ m ≤ (nbrs v).length := by
          intro hcon
          rw [hm] at hle
          exact hle (by simpa [mxLE] using hcon)
        omega
      · exact maxDegLoop_ub nbrs rest _ _ hinv v hv'

theorem select_spec (p : Puzzle V) (dom : Domains V) (A : Assignment V)
    (h : ∃ v ∈ p.vars, v ∉ keys A) :
    ∃ var, select_unassigned_variable p dom A = some var ∧ var ∈ p.vars ∧ var ∉ keys A
      ∧ (∀ u ∈ p.vars, u ∉ keys A → (dom var).length ≤ (dom u).length)
      ∧ (∀ u ∈ p.vars, u ∉ keys A → (dom u).length = (dom var).length →
          (p.neighbors u).length ≤ (p.neighbors var).length) := by
  obtain ⟨v0, hv0v, hv0a⟩ := h
  have hlmem : ∀ k, k ∈ p.vars → k ∉ keys A →
      ((dom k).length, k) ∈ (p.vars.filter (fun k => decide (k ∉ keys A))).map
        (fun k => ((dom k).length, k)) := by
    intro k hk hka
    exact List.mem_map.mpr ⟨k, List.mem_filter.mpr ⟨hk, decide_eq_true hka⟩, rfl⟩
  have hmemlst : ∀ e, e ∈ (p.vars.filter (fun k => decide (k ∉ keys A))).map
      (fun k => ((dom k).length, k)) →
      e.2 ∈ p.vars ∧ e.2 ∉ keys A ∧ e = ((dom e.2).length, e.2) := by
    intro e he
    obtain ⟨k, hk, rfl⟩ := List.mem_map.mp he
    have hf := List.mem_filter.mp hk
    exact ⟨hf.1, of_decide_eq_true hf.2, rfl⟩
  obtain ⟨u, us, hs⟩ : ∃ u us,
      pysorted ((p.vars.filter (fun k => decide (k ∉ keys A))).map
        (fun k => ((dom k).length, k))) = u :: us := by
    cases hp : pysorted ((p.vars.filter (fun k => decide (k ∉ keys A))).map
        (fun k => ((dom k).length, k))) with
    | nil =>
      have hperm := pysorted_perm ((p.vars.filter (fun k => decide (k ∉ keys A))).map
        (fun k => ((dom k).length, k)))
      rw [hp] at hperm
      have := hperm.symm.subset (hlmem v0 hv0v hv0a)
      exact absurd this (List.not_mem_nil _)
    | cons u us => exact ⟨u, us, rfl⟩
  have hperm := pysorted_perm ((p.vars.filter (fun k => decide (k ∉ keys A))).map
    (fun k => ((dom k).length, k)))
  rw [hs] at hperm
  have hsorted := pysorted_sorted ((p.vars.filter (fun k => decide (k ∉ keys A))).map
    (fun k => ((dom k).length, k)))
  rw [hs] at hsorted
  have hmin : ∀ e, e ∈ u :: us → u.1 ≤ e.1 := by
    intro e he
    rcases List.mem_cons.mp he with rfl | he'
    · exact Nat.le_refl _
    · exact List.rel_of_sorted_cons hsorted e he'
  have hminvars : ∀ k ∈ p.vars, k ∉ keys A → u.1 ≤ (dom k).length := by
    intro k hk hka
    exact hmin ((dom k).length, k) (hperm.symm.subset (hlmem k hk hka))
  have hcm := collectMin_mem u.1 (u :: us) hsorted hmin
  have hmrv : ∀ v, v ∈ collectMin u.1 (u :: us) ↔
      (v ∈ p.vars ∧ v ∉ keys A ∧ (dom v).length = u.1) := by
    intro v
    rw [hcm v]
    constructor
    · rintro ⟨e, he, h1, h2⟩
      obtain ⟨he1, he2, he3⟩ := hmemlst e (hperm.subset he)
      subst h2
      refine ⟨he1, he2, ?_⟩
      have : e.1 = (dom e.2).length := congrArg Prod.fst he3
      omega
    · rintro ⟨hv, ha, hd⟩
      exact ⟨((dom v).length, v), hperm.symm.subset (hlmem v hv ha), hd, rfl⟩
  have hu2 : u.2 ∈ collectMin u.1 (u :: us) := by
    rw [collectMin]
    simp
  have hsel : select_unassigned_variable p dom A
      = (match collectMin u.1 (u :: us) with
        | [w] => some w
        | mrv =>
          match pysortedDesc (maxDegLoop p.neighbors none [] mrv) with
          | [] => none
          | s0 :: _ => some s0.2) := by
    unfold select_unassigned_variable
    rw [hs]
  cases hmr : collectMin u.1 (u :: us) with
  | nil =>
    rw [hmr] at hu2
    exact absurd hu2 (List.not_mem_nil _)
  | cons w ws =>
    cases ws with
    | nil =>
      rw [hmr] at hsel
      obtain ⟨hwv, hwa, hwd⟩ := (hmrv w).mp (hmr ▸ List.mem_cons_self _ _)
      refine ⟨w, hsel, hwv, hwa, ?_, ?_⟩
      · intro k hk hka
        rw [hwd]
        exact hminvars k hk hka
      · intro k hk hka hkd
        have hkmem : k ∈ collectMin u.1 (u :: us) :=
          (hmrv k).mpr ⟨hk, hka, by omega⟩
        rw [hmr] at hkmem
        rcases List.mem_cons.mp hkmem with rfl | hk0
        · exact Nat.le_refl _
        · exact absurd hk0 (List.not_mem_nil _)
    | cons w2 ws2 =>
      rw [hmr] at hsel
      have hmd1 : ((p.neighbors w).length, w)
          ∈ maxDegLoop p.neighbors none [] (w :: w2 :: ws2) := by
        rw [maxDegLoop]
        rw [if_pos (show mxLE none (p.neighbors w).length = true from rfl)]
        exact maxDegLoop_acc_mem p.neighbors _ _ _ _ (List.mem_cons_self _ _)
      obtain ⟨s0, srest, hsd⟩ : ∃ s0 srest,
          pysortedDesc (maxDegLoop p.neighbors none [] (w :: w2 :: ws2))
            = s0 :: srest := by
        cases hp : pysortedDesc (maxDegLoop p.neighbors none [] (w :: w2 :: ws2)) with
        | nil =>
          have hperm2 := pysortedDesc_perm (maxDegLoop p.neighbors none [] (w :: w2 :: ws2))
          rw [hp] at hperm2
          exact absurd (hperm2.symm.subset hmd1) (List.not_mem_nil _)
        | cons s0 srest => exact ⟨s0, srest, rfl⟩
      have hstep : (match w :: w2 :: ws2 with
          | [w] => some w
          | mrv =>
            match pysortedDesc (maxDegLoop p.neighbors none [] mrv) with
            | [] => none
            | s0 :: _ => some s0.2)
          = (match pysortedDesc (maxDegLoop p.neighbors none [] (w :: w2 :: ws2)) with
            | [] => (none : Option V)
            | s0 :: _ => some s0.2) := rfl
      have hfinal : select_unassigned_variable p dom A = some s0.2 := by
        rw [hsel, hstep, hsd]
      have hperm2 := pysortedDesc_perm (maxDegLoop p.neighbors none [] (w :: w2 :: ws2))
      rw [hsd] at hperm2
      have hsorted2 := pysortedDesc_sorted (maxDegLoop p.neighbors none [] (w :: w2 :: ws2))
      rw [hsd] at hsorted2
      have hs0max : ∀ e, e ∈ maxDegLoop p.neighbors none [] (w :: w2 :: ws2) →
          e.1 ≤ s0.1 := by
        intro e he
        rcases List.mem_cons.mp (hperm2.symm.subset he) with rfl | he'
        · exact Nat.le_refl _
        · exact List.rel_of_sorted_cons hsorted2 e he'
      have hs0mem : s0 ∈ maxDegLoop p.neighbors none [] (w :: w2 :: ws2) :=
        hperm2.subset (List.mem_cons_self _ _)
      rcases maxDegLoop_mem p.neighbors _ _ _ _ hs0mem with hacc | ⟨v1, hv1, hs0eq⟩
      · exact absurd hacc (List.not_mem_nil _)
      · obtain ⟨hv1v, hv1a, hv1d⟩ := (hmrv v1).mp (hmr ▸ hv1)
        refine ⟨s0.2, hfinal, ?_, ?_, ?_, ?_⟩
        · rw [hs0eq]
          exact hv1v
        · rw [hs0eq]
          exact hv1a
        · intro k hk hka
          rw [hs0eq]
          simp only
          rw [hv1d]
          exact hminvars k hk hka
        · intro k hk hka hkd
          have hkmrv : k ∈ collectMin u.1 (u :: us) := by
            refine (hmrv k).mpr ⟨hk, hka, ?_⟩
            rw [hs0eq] at hkd
            simp only at hkd
            omega
          rw [hmr] at hkmrv
          obtain ⟨e, he, hke⟩ :=
            maxDegLoop_ub p.neighbors (w :: w2 :: ws2) none []
              (by intro m hm; exact absurd hm (by simp)) k hkmrv
          have := hs0max e he
          have hs01 : s0.1 = (p.neighbors v1).length := congrArg Prod.fst hs0eq
          rw [hs0eq]
          simp only
          omega

/-- Claim C7: whenever at least one slot is unassigned,
`select_unassigned_variable` returns an unassigned slot of minimal
remaining domain size, and among those minimal slots one of maximal
neighbor count. -/
theorem select_unassigned_variable_mrv_degree (p : Puzzle V) (dom : Domains V)
    (A : Assignment V) (h : ∃ v ∈ p.vars, v ∉ keys A) :
    ∃ var, select_unassigned_variable p dom A = some var ∧ var ∈ p.vars ∧ var ∉ keys A
      ∧ (∀ u ∈ p.vars, u ∉ keys A → (dom var).length ≤ (dom u).length)
      ∧ (∀ u ∈ p.vars, u ∉ keys A → (dom u).length = (dom var).length →
          (p.neighbors u).length ≤ (p.neighbors var).length) :=
  select_spec p dom A h

/-- Witness for C7 on the crash puzzle with the empty assignment: both
slots are unassigned with equal domain sizes and equal degrees, and the
first slot in enumeration order is selected. -/
theorem select_unassigned_variable_mrv_degree_witness :
    ∃ var, select_unassigned_variable pC (initialDomains pC) [] = some var
      ∧ var ∈ pC.vars ∧ var ∉ keys []
      ∧ (∀ u ∈ pC.vars, u ∉ keys [] →
          ((initialDomains pC) var).length ≤ ((initialDomains pC) u).length)
      ∧ (∀ u ∈ pC.vars, u ∉ keys [] →
          ((initialDomains pC) u).length = ((initialDomains pC) var).length →
          (pC.neighbors u).length ≤ (pC.neighbors var).length) :=
  select_unassigned_variable_mrv_degree pC (initialDomains pC) [] (by decide)

/-! ### Claim C9: the fully blocked grid -/

/-- Claim C9: on a puzzle with zero slots, `solve` returns the empty
assignment: the empty assignment is complete, so `backtrack({})` returns
it immediately. -/
theorem solve_zero_slots (p : Puzzle V) (hv : p.vars = []) (f1 f2 : Nat) :
    solve p (f1 + 1) (f2 + 1) = some (.found ([] : Assignment V)) := by
  have hq : (none : Option (List (V × V))).getD (combinations2 p.vars)
      = ([] : List (V × V)) := by
    rw [hv]
    rfl
  have hac : ac3 p (f1 + 1) none (enforce_node_consistency p (initialDomains p))
      = some (true, enforce_node_consistency p (initialDomains p)) := by
    unfold ac3
    rw [hq]
    rw [ac3Aux]
    rw [dif_neg (by simp)]
    rw [if_pos (show ([] : List (V × V)).isEmpty = true from rfl)]
  simp only [solve]
  rw [hac]
  show backtrack p (f2 + 1) (enforce_node_consistency p (initialDomains p)) []
      = some (.found [])
  rw [backtrack]
  rw [if_pos (show assignment_complete p [] = true by unfold assignment_complete; rw [hv]; rfl)]

/-- A one-potential-slot type but an empty slot list: the fully blocked
grid. -/
def pE : Puzzle (Fin 1) := ⟨[], [wA], fun _ => 3, fun _ _ => none, fun _ => []⟩

/-- Witness for C9 at the concrete blocked grid `pE`. -/
theorem solve_zero_slots_witness : solve pE 3 3 = some (.found []) :=
  solve_zero_slots pE rfl 2 2

/-! ### Claim C4: a slot with no word of matching length -/

/-- Claim C4: when some slot's length is matched by no word at all,
`solve` returns the no-solution result instead of raising: node
consistency empties that slot's domain, `ac3` never re-adds values, and
the first `backtrack` call selects that minimal (empty) domain, has no
candidate values, and returns `None`. -/
theorem solve_no_matching_length (p : Puzzle V) (v0 : V) (hv0 : v0 ∈ p.vars)
    (hno : ∀ w ∈ p.words, w.length ≠ p.vlen v0) (f1 f2 : Nat) (b : Bool)
    (dom2 : Domains V)
    (hac : ac3 p f1 none (enforce_node_consistency p (initialDomains p)) = some (b, dom2)) :
    solve p f1 (f2 + 1) = some (.nosol) := by
  have h1 : enforce_node_consistency p (initialDomains p) v0 = [] := by
    unfold enforce_node_consistency initialDomains
    rw [if_pos hv0]
    refine List.filter_eq_nil_iff.mpr ?_
    intro w hw
    simp [hno w hw]
  have h2 : dom2 v0 = [] := by
    have hsub := (ac3_monotone_and_false_empty p f1 none _ b dom2 hac).1 v0
    rw [h1] at hsub
    exact List.subset_nil.mp hsub
  simp only [solve]
  rw [hac]
  show backtrack p (f2 + 1) dom2 [] = some .nosol
  rw [backtrack]
  rw [if_neg (show ¬ assignment_complete p [] = true from ?_)]
  case _ =>
    obtain ⟨var, hsel, hvv, hva, hmin, hdeg⟩ :=
      select_spec p dom2 [] ⟨v0, hv0, by simp [keys]⟩
    rw [hsel]
    have hvd : dom2 var = [] := by
      have hle := hmin v0 hv0 (by simp [keys])
      rw [h2, List.length_nil] at hle
      exact List.eq_nil_of_length_eq_zero (by omega)
    have hodv : order_domain_values p dom2 [] var = [] := by
      unfold order_domain_values
      rw [hvd]
      rfl
    show btLoop p (backtrack p f2) f2 dom2 [] var (order_domain_values p dom2 [] var)
        = some .nosol
    rw [hodv]
    rfl
  case _ =>
    intro hcomp
    have := complete_spec p [] hcomp v0 hv0
    simp [keys] at this

/-- Two crossing slots, lengths 4 and 3, but every word has length 3: no
word fits slot 0. -/
def p4 : Puzzle (Fin 2) :=
  ⟨[0, 1], [wA, wAB], fun v => if v = 0 then 4 else 3,
    fun x y => if x = y then none else some (0, 0),
    fun x => if x = 0 then [1] else [0]⟩

/-- The Boolean returned by the initial `ac3` pass on `p4`. -/
def ac3Bool4 : Bool :=
  match ac3 p4 9 none (enforce_node_consistency p4 (initialDomains p4)) with
  | some r => r.1
  | none => false

/-- The domain store left by the initial `ac3` pass on `p4`. -/
def ac3Dom4 : Domains (Fin 2) :=
  match ac3 p4 9 none (enforce_node_consistency p4 (initialDomains p4)) with
  | some r => r.2
  | none => initialDomains p4

/-- Witness for C4 at the concrete puzzle `p4`: `solve` answers
no-solution. -/
theorem solve_no_matching_length_witness : solve p4 9 9 = some (.nosol) :=
  solve_no_matching_length p4 0 (by decide) (by decide) 9 8 ac3Bool4 ac3Dom4 rfl

/-! ### Claims C2 and C3: the failed-branch path of `backtrack` -/

/-- Claim C2 (code bug, evaluated at the failing input): on the crash
puzzle `pC`, a committed candidate fails and `solve` raises: control
reaches `assignment.remove(var)` — a method Python dicts do not have —
so `AttributeError` aborts the whole search.  No snapshot of the domain
store is ever taken and no restoration happens: the claim's rollback
does not exist in the code. -/
theorem solve_crash_instead_of_rollback :
    isExn (solve pC 9 9) = true ∧ solve pC 9 9 ≠ some (.nosol) := by
  refine ⟨rfl, ?_⟩
  intro h
  have hco : isExn (some (BTResult.nosol : BTResult (Fin 2))) = true := by
    rw [← h]
    rfl
  simp [isExn] at hco

/-- Claim C3 (code bug, evaluated at the failing input): on the crash
puzzle `pC`, `backtrack({})` commits `AAA` to slot 0, the recursive call
returns `None`, and the branch then raises `AttributeError` at
`assignment.remove(var)` instead of removing `var` and continuing to the
next candidate; the call never terminates normally with the failure
result. -/
theorem backtrack_crash_instead_of_continue :
    isExn (backtrack pC 9 (enforce_node_consistency pC (initialDomains pC)) []) = true
    ∧ backtrack pC 9 (enforce_node_consistency pC (initialDomains pC)) []
        ≠ some (.nosol) := by
  refine ⟨rfl, ?_⟩
  intro h
  have hco : isExn (some (BTResult.nosol : BTResult (Fin 2))) = true := by
    rw [← h]
    rfl
  simp [isExn] at hco

/-- Witness for C8 at a concrete slot pair: `revise(0, 1)` on the crash
puzzle removes nothing and reports `False`. -/
theorem revise_false_iff_unchanged_witness :
    ((revise pC (0 : Fin 2) 1 (initialDomains pC)).1 = false
      ↔ (revise pC (0 : Fin 2) 1 (initialDomains pC)).2 0 = initialDomains pC 0)
    ∧ (pC.overlaps (0 : Fin 2) 1 = none → (revise pC (0 : Fin 2) 1 (initialDomains pC)).1 = false)
    ∧ ((revise pC (0 : Fin 2) 1 (initialDomains pC)).1 = true
      ↔ (revise pC (0 : Fin 2) 1 (initialDomains pC)).2 0 ≠ initialDomains pC 0) :=
  revise_false_iff_unchanged pC 0 1 (initialDomains pC)

/-- The domain store produced by the initial `ac3` pass on the crash
puzzle, used to witness C6. -/
def ac3DomC : Domains (Fin 2) :=
  match ac3 pC 9 none (initialDomains pC) with
  | some r => r.2
  | none => initialDomains pC

/-- Witness for C6: the initial `ac3` pass on the crash puzzle returns
`True` with slot 0's resulting domain a subset of its starting one. -/
theorem ac3_monotone_and_false_empty_witness :
    ac3DomC 0 ⊆ initialDomains pC 0 :=
  (ac3_monotone_and_false_empty pC 9 none (initialDomains pC) true ac3DomC (by rfl)).1 0

end CrosswordGen
